import Mathlib

/-!
Verification development for the miniparse text-processing pipeline.

Modelling conventions:
* JS strings are modelled as `List Char` (positions are list indices, ASCII
  oriented: the JS whitespace classes are modelled by their ASCII members).
* Each extractor of `src/processors/extract.ts` is embedded as a function on
  `List Char` producing the list of entities it pushes, in push order.
* The number extractor's outer `while` loop does not always advance its scan
  position, so it is embedded with an explicit fuel parameter; `none` means
  the fuel ran out (the concrete loop ran longer than the given bound).
* `parseFloat` and `Number.prototype.toString` are modelled over decimal
  values (a sign, a digit mantissa and a power-of-ten exponent), including
  the binary64 overflow to infinity at `2 ^ 1024 - 2 ^ 970`.  Sub-maximal
  mantissa rounding and the exponential rendering of extreme magnitudes
  are kept exact; both preserve the parse/render round-trip this
  development relies on.
-/

namespace Miniparse

/-! ## Character classes -/

/-- Digit test of `extract.ts` (`char >= '0' && char <= '9'`). -/
def isDigitC (c : Char) : Bool := '0' ≤ c && c ≤ '9'

/-- Local-part characters of the email regex: `[a-zA-Z0-9._%+-]`. -/
def isLocalChar (c : Char) : Bool :=
  c.isAlpha || c.isDigit || c == '.' || c == '_' || c == '%' || c == '+' || c == '-'

/-- Domain characters of the email regex: `[a-zA-Z0-9.-]`. -/
def isDomainChar (c : Char) : Bool :=
  c.isAlpha || c.isDigit || c == '.' || c == '-'

/-- ASCII members of the JS whitespace class `\s` used by the phone split. -/
def isWsC (c : Char) : Bool :=
  c == ' ' || c == '\t' || c == '\n' || c == '\r' || c == '\x0b' || c == '\x0c'

/-- Delimiters of the phone candidate split: `[\s\n\r\t,;()<>[\]{}]`. -/
def isPhoneDelim (c : Char) : Bool :=
  isWsC c || c == ',' || c == ';' || c == '(' || c == ')' || c == '<' || c == '>' ||
  c == '[' || c == ']' || c == '\x7b' || c == '\x7d'

/-- Accepted phone separators: `['-', '.', ' ', '(', ')', '+']`. -/
def isPhoneSep (c : Char) : Bool :=
  c == '-' || c == '.' || c == ' ' || c == '(' || c == ')' || c == '+'

/-- Characters ending a URL candidate:
`[' ', '\n', '\r', '\t', '<', '>', '(', ')', '[', ']', '{', '}']`. -/
def isUrlStop (c : Char) : Bool :=
  c == ' ' || c == '\n' || c == '\r' || c == '\t' || c == '<' || c == '>' ||
  c == '(' || c == ')' || c == '[' || c == ']' || c == '\x7b' || c == '\x7d'

/-! ## List helpers shared by the extractors -/

/-- Boolean test that `pat` occurs at the head of `s`. -/
def startsWithL : List Char → List Char → Bool
  | [], _ => true
  | _ :: _, [] => false
  | a :: ps, b :: ss => if a = b then startsWithL ps ss else false

/-- Auxiliary scan for `indexOfSub`, carrying the current index. -/
def indexOfAux (pat : List Char) : List Char → Nat → Option Nat
  | s, i =>
    if startsWithL pat s then some i
    else
      match s with
      | [] => none
      | _ :: t => indexOfAux pat t (i + 1)

/-- Index of the first occurrence of `pat` in `cs`: JS `text.indexOf(pat)`. -/
def indexOfSub (cs pat : List Char) : Option Nat := indexOfAux pat cs 0

/-- First occurrence of `pat` in `cs` at an index `≥ start`:
JS `text.indexOf(pat, start)`. -/
def indexOfFrom (cs pat : List Char) (start : Nat) : Option Nat :=
  (indexOfAux pat (cs.drop start) 0).map (· + start)

/-- The substring `cs[a..b)`: JS `text.substring(a, b)` for `a ≤ b`. -/
def slice (cs : List Char) (a b : Nat) : List Char := (cs.drop a).take (b - a)

/-- JS `s.split(sep)` for a single separator character: splits at every
occurrence, keeping empty chunks. -/
def splitOnCharL (sep : Char) : List Char → List (List Char)
  | [] => [[]]
  | c :: t =>
    if c = sep then [] :: splitOnCharL sep t
    else
      match splitOnCharL sep t with
      | [] => [[c]]
      | chunk :: more => (c :: chunk) :: more

/-! ## Data model: tokens, entities, the result record -/

inductive TokenType where
  | word | number | punct | symbol
deriving DecidableEq, Repr

/-- Token record; the source field `end` is a Lean keyword and is rendered as
`endPos`. -/
structure Token where
  type : TokenType
  value : List Char
  start : Nat
  endPos : Nat
deriving DecidableEq, Repr

inductive EntityType where
  | email | phone | url | number
deriving DecidableEq, Repr

/-- Entity record; the source field `end` is rendered as `endPos`. -/
structure Entity where
  type : EntityType
  value : List Char
  start : Nat
  endPos : Nat
deriving DecidableEq, Repr

/-- The carrier record threaded through pipeline stages. -/
structure IntentResult where
  text : List Char
  tokens : List Token
  entities : List Entity
deriving DecidableEq

/-! ## Email extractor

The regex `/[a-zA-Z0-9._%+-]+@[a-zA-Z0-9.-]+\.[a-zA-Z]{2,}/g` is embedded by
a direct matcher implementing its leftmost, greedy backtracking semantics:
the local part is forced to be the maximal run of local characters (no
shorter split can be followed by `@`), the domain run `[a-zA-Z0-9.-]+` is
backtracked from the longest split whose next character is the literal dot
and is followed by at least two letters, and the trailing letter run is
maximal. -/

/-- Try a domain split of length `k`: the character at index `k` of `s2` must
be the literal `'.'` of the regex, followed by at least two letters.  Returns
the total length consumed after the `@`. -/
def tryDomainSplit (s2 : List Char) (k : Nat) : Option Nat :=
  if s2.getD k ' ' = '.' ∧ k < s2.length then
    let a := ((s2.drop (k + 1)).takeWhile Char.isAlpha).length
    if 2 ≤ a then some (k + 1 + a) else none
  else none

/-- Backtracking search over domain split lengths `k, k-1, …, 1`. -/
def domainSearch (s2 : List Char) : Nat → Option Nat
  | 0 => none
  | k + 1 =>
    match tryDomainSplit s2 (k + 1) with
    | some n => some n
    | none => domainSearch s2 k

/-- Match of the `[a-zA-Z0-9.-]+\.[a-zA-Z]{2,}` part at the head of `s2`. -/
def domainMatch (s2 : List Char) : Option Nat :=
  let r := (s2.takeWhile isDomainChar).length
  domainSearch s2 (r - 1)

/-- Length of the email-regex match starting exactly at the head of `s`, if
any. -/
def matchEmailHere (s : List Char) : Option Nat :=
  let l := (s.takeWhile isLocalChar).length
  if l = 0 then none
  else
    match s.drop l with
    | '@' :: s2 =>
      match domainMatch s2 with
      | some d => some (l + 1 + d)
      | none => none
    | _ => none

/-- The `while ((match = emailPattern.exec(text)) !== null)` loop: successive
non-overlapping leftmost matches.  One fuel unit per attempted start
position; matches advance the position by their positive length, failed
attempts advance it by one, so `cs.length + 1` fuel always suffices. -/
def emailGo (cs : List Char) : Nat → Nat → List Entity
  | 0, _ => []
  | fuel + 1, p =>
    if p < cs.length then
      match matchEmailHere (cs.drop p) with
      | some n => ⟨.email, (cs.drop p).take n, p, p + n⟩ :: emailGo cs fuel (p + n)
      | none => emailGo cs fuel (p + 1)
    else []

/-- Entities pushed by `extractEmails`, in push order. -/
def emailEntities (cs : List Char) : List Entity := emailGo cs (cs.length + 1) 0

/-- The `extractEmails` stage: pushes the found entities onto the record. -/
def extractEmails (input : IntentResult) : IntentResult :=
  { input with entities := input.entities ++ emailEntities input.text }

/-! ## Phone extractor

`text.split(/[\s\n\r\t,;()<>[\]{}]+/)` splits on maximal delimiter runs;
empty strings arise only at the boundaries and are skipped by the
`if (!token) continue` guard, so the processed candidates are exactly the
maximal delimiter-free runs, produced here directly. -/

/-- Maximal delimiter-free runs of `cs`; `cur` is the reversed current run. -/
def phoneSplitGo : List Char → List Char → List (List Char)
  | [], cur => if cur.isEmpty then [] else [cur.reverse]
  | c :: rest, cur =>
    if isPhoneDelim c then
      if cur.isEmpty then phoneSplitGo rest []
      else cur.reverse :: phoneSplitGo rest []
    else phoneSplitGo rest (c :: cur)

/-- The non-empty candidates the phone loop examines, in order. -/
def phoneTokens (cs : List Char) : List (List Char) := phoneSplitGo cs []

/-- Entities pushed by `extractPhones`, in push order. -/
def phoneEntities (cs : List Char) : List Entity :=
  (phoneTokens cs).filterMap (fun token =>
    if 10 ≤ token.length then
      let digitCount := token.countP (fun c => isDigitC c)
      let separatorCount := token.countP (fun c => !isDigitC c && isPhoneSep c)
      if 10 ≤ digitCount ∧ digitCount ≤ 15 ∧ digitCount + separatorCount = token.length then
        match indexOfSub cs token with
        | some start => some ⟨.phone, token, start, start + token.length⟩
        | none => none
      else none
    else none)

/-- The `extractPhones` stage. -/
def extractPhones (input : IntentResult) : IntentResult :=
  { input with entities := input.entities ++ phoneEntities input.text }

/-! ## URL extractor -/

/-- JS `s.split(sep)` for a non-empty separator string, fuelled (one unit per
step; `s.length + 1` always suffices because every step consumes a
character or ends the scan). -/
def splitOnListGo (sep : List Char) : Nat → List Char → List Char → List (List Char)
  | 0, s, acc => [acc.reverse ++ s]
  | fuel + 1, s, acc =>
    if startsWithL sep s ∧ sep ≠ [] then
      acc.reverse :: splitOnListGo sep fuel (s.drop sep.length) []
    else
      match s with
      | [] => [acc.reverse]
      | c :: t => splitOnListGo sep fuel t (c :: acc)

/-- JS `s.split(sep)` for a separator string. -/
def splitOnListL (sep s : List Char) : List (List Char) :=
  splitOnListGo sep (s.length + 1) s []

/-- The `isValidUrl` check of `extract.ts`. -/
def isValidUrl (url : List Char) : Bool :=
  let parts := splitOnListL ("://".toList) url
  if parts.length ≠ 2 then false
  else
    let protocol := parts.getD 0 []
    let path := parts.getD 1 []
    if protocol.isEmpty || path.isEmpty ||
        !(protocol = "http".toList ∨ protocol = "https".toList) then false
    else
      let domainPath := (splitOnCharL '/' path).getD 0 []
      if domainPath.isEmpty then false
      else
        let domainParts := splitOnCharL '.' domainPath
        if domainParts.length < 2 then false
        else domainParts.all (fun part =>
          !part.isEmpty && part.all (fun c => c.isAlpha || c.isDigit || c == '-'))

/-- One protocol pass of `extractUrls`: find the protocol from `searchStart`,
extend to the first stop character, validate, and advance the search
position (`urlEnd > searchStart ? urlEnd : searchStart + 1`).  Fuelled: the
position strictly increases each iteration, so `cs.length + 1` suffices. -/
def urlScanGo (cs proto : List Char) : Nat → Nat → List Entity
  | 0, _ => []
  | fuel + 1, searchStart =>
    if searchStart < cs.length then
      match indexOfFrom cs proto searchStart with
      | none => []
      | some protocolIndex =>
        let base := protocolIndex + proto.length
        let urlEnd := base + ((cs.drop base).takeWhile (fun c => !isUrlStop c)).length
        let url := slice cs protocolIndex urlEnd
        let tail := urlScanGo cs proto fuel (if searchStart < urlEnd then urlEnd else searchStart + 1)
        if isValidUrl url then ⟨.url, url, protocolIndex, urlEnd⟩ :: tail else tail
    else []

/-- Entities pushed by `extractUrls`: the full `http://` pass followed by the
full `https://` pass. -/
def urlEntities (cs : List Char) : List Entity :=
  urlScanGo cs ("http://".toList) (cs.length + 1) 0 ++
  urlScanGo cs ("https://".toList) (cs.length + 1) 0

/-- The `extractUrls` stage. -/
def extractUrls (input : IntentResult) : IntentResult :=
  { input with entities := input.entities ++ urlEntities input.text }

/-! ## Number extractor -/

/-- The inner find-start loop of `extractNumbers`: first index `≥ i` holding
a digit or a dot. -/
def findNumStart (cs : List Char) (i : Nat) : Nat :=
  i + ((cs.drop i).takeWhile (fun c => !(isDigitC c || c == '.'))).length

/-- The candidate scan of `extractNumbers`, with one fuel unit per consumed
character (the loop advances `i` by one each iteration, so `cs.length - i`
fuel is exact). -/
def scanNumGo (cs : List Char) : Nat → Nat → Bool → Nat
  | 0, i, _ => i
  | fuel + 1, i, hasDecimal =>
    if i < cs.length then
      let c := cs.getD i ' '
      if isDigitC c then scanNumGo cs fuel (i + 1) hasDecimal
      else if c = '.' ∧ !hasDecimal then
        if 0 < i ∧ isDigitC (cs.getD (i - 1) ' ') ∧
            i + 1 < cs.length ∧ isDigitC (cs.getD (i + 1) ' ') then
          scanNumGo cs fuel (i + 1) true
        else i
      else i
    else i

/-- End position of the candidate scan started at `i`. -/
def scanNum (cs : List Char) (i : Nat) (hasDecimal : Bool) : Nat :=
  scanNumGo cs (cs.length - i) i hasDecimal

/-! ### The parseFloat / toString model -/

/-- A JS number as `parseFloat` can produce: NaN, a signed infinity, or a
signed decimal value `m · 10 ^ e`. -/
inductive JsNum where
  | nan : JsNum
  | inf (neg : Bool) : JsNum
  | val (neg : Bool) (m : Nat) (e : Int) : JsNum
deriving DecidableEq, Repr

/-- Numeric value of a digit character. -/
def digitVal (c : Char) : Nat := c.toNat - 48

/-- Value of a digit list read most-significant first. -/
def digitsToNat (ds : List Char) : Nat := ds.foldl (fun a c => a * 10 + digitVal c) 0

/-- Leading sign of a numeric literal. -/
def splitSign (s : List Char) : Bool × List Char :=
  match s with
  | [] => (false, [])
  | c :: t => if c = '-' then (true, t) else if c = '+' then (false, t) else (false, c :: t)

/-- Fraction digits after a leading decimal point. -/
def fracPart (s : List Char) : List Char :=
  match s with
  | [] => []
  | c :: t => if c = '.' then t.takeWhile Char.isDigit else []

/-- Rest of the literal after the optional point and fraction digits. -/
def afterFrac (s : List Char) : List Char :=
  match s with
  | [] => []
  | c :: t => if c = '.' then t.dropWhile Char.isDigit else c :: t

/-- Signed exponent digits after `e`/`E`; an ill-formed exponent is not part
of the literal and contributes zero. -/
def parseExpTail (s : List Char) : Int :=
  match s with
  | [] => 0
  | c :: t =>
    if c = '-' then
      let ds := t.takeWhile Char.isDigit
      if ds.isEmpty then 0 else -(digitsToNat ds : Int)
    else if c = '+' then
      let ds := t.takeWhile Char.isDigit
      if ds.isEmpty then 0 else (digitsToNat ds : Int)
    else
      let ds := (c :: t).takeWhile Char.isDigit
      if ds.isEmpty then 0 else (digitsToNat ds : Int)

/-- Exponent part of the literal. -/
def expPart (s : List Char) : Int :=
  match s with
  | [] => 0
  | c :: t => if c = 'e' ∨ c = 'E' then parseExpTail t else 0

/-- The literal character list of `Infinity`. -/
def infinityChars : List Char := ['I', 'n', 'f', 'i', 'n', 'i', 't', 'y']

/-- Smallest decimal magnitude that binary64 round-to-nearest-even sends to
infinity: the midpoint `2 ^ 1024 - 2 ^ 970` between the largest finite
double `2 ^ 1024 - 2 ^ 971` and `2 ^ 1024` (the tie rounds to the even
mantissa, i.e. up to infinity). -/
def overflowBound : Nat := 2 ^ 1024 - 2 ^ 970

/-- Whether the decimal value `m · 10 ^ e` overflows binary64 to
infinity. -/
def jsOverflow (m : Nat) (e : Int) : Bool :=
  if 0 ≤ e then decide (overflowBound ≤ m * 10 ^ e.toNat)
  else decide (overflowBound * 10 ^ (-e).toNat ≤ m)

/-- Parse after the sign: `Infinity`, or digits with an optional single
point and an optional exponent; no digits at all means NaN; a parsed
magnitude beyond the binary64 range overflows to infinity. -/
def parseAfterSign (neg : Bool) (s2 : List Char) : JsNum :=
  if startsWithL infinityChars s2 then .inf neg
  else
    let intDs := s2.takeWhile Char.isDigit
    let rest := s2.dropWhile Char.isDigit
    let fracDs := fracPart rest
    if intDs.isEmpty && fracDs.isEmpty then .nan
    else
      let m := digitsToNat (intDs ++ fracDs)
      let e := expPart (afterFrac rest) - fracDs.length
      if jsOverflow m e then .inf neg else .val neg m e

/-- Model of JS `parseFloat`: skip leading whitespace, read an optional
sign, then the longest numeric-literal prefix; ignore the rest. -/
def jsParseFloat (s : List Char) : JsNum :=
  let s1 := s.dropWhile isWsC
  parseAfterSign (splitSign s1).1 (splitSign s1).2

/-- The `isNumber` helper of `extract.ts`:
`!isNaN(parseFloat(str)) && isFinite(parseFloat(str))`. -/
def isNumber (str : List Char) : Bool :=
  match jsParseFloat str with
  | .val _ _ _ => true
  | _ => false

/-! ### The number extractor loop -/

/-- The outer `while (i < text.length)` loop of `extractNumbers`, fuelled
because the scan position does not always advance.  `none` means the fuel
ran out, i.e. the concrete loop ran longer than the given bound. -/
def numLoop (cs : List Char) : Nat → Nat → List Entity → Option (List Entity)
  | 0, _, _ => none
  | fuel + 1, i, acc =>
    if i < cs.length then
      let j := findNumStart cs i
      if j < cs.length then
        let e := scanNum cs j false
        let acc' :=
          if j < e then
            if isNumber (slice cs j e) then acc ++ [⟨.number, slice cs j e, j, e⟩] else acc
          else acc
        numLoop cs fuel e acc'
      else some acc
    else some acc

/-- The `extractNumbers` stage, fuelled; `none` when the source loop would
still be running after `fuel` iterations. -/
def extractNumbers (fuel : Nat) (input : IntentResult) : Option IntentResult :=
  (numLoop input.text fuel 0 []).map
    (fun es => { input with entities := input.entities ++ es })

/-! ## Normalize stage -/

/-- ASCII lowercasing of one character, as JS `toLowerCase` acts on ASCII. -/
def toLowerC (c : Char) : Char := Char.toLower c

/-- Model of JS `String.prototype.toLowerCase` on our ASCII-oriented
strings. -/
def toLowerStr (s : List Char) : List Char := s.map toLowerC

/-- Digit character for a value below ten. -/
def digitChar (d : Nat) : Char :=
  if d = 0 then '0' else if d = 1 then '1' else if d = 2 then '2'
  else if d = 3 then '3' else if d = 4 then '4' else if d = 5 then '5'
  else if d = 6 then '6' else if d = 7 then '7' else if d = 8 then '8' else '9'

/-- Decimal digit list of a natural number, most significant first. -/
def natToDigits (n : Nat) : List Char :=
  if _h : n < 10 then [digitChar n]
  else natToDigits (n / 10) ++ [digitChar (n % 10)]
decreasing_by exact Nat.div_lt_self (by omega) (by omega)

/-- Remove factors of ten from the mantissa, moving them into the
exponent. -/
def stripZeros (m : Nat) (e : Int) : Nat × Int :=
  if h : m ≠ 0 ∧ m % 10 = 0 then stripZeros (m / 10) (e + 1) else (m, e)
decreasing_by exact Nat.div_lt_self (by omega) (by omega)

/-- A run of zero characters. -/
def zeroChars (k : Nat) : List Char := List.replicate k '0'

/-- Canonical decimal rendering of `m · 10 ^ e` for a non-zero mantissa with
no trailing zeros. -/
def renderDec (m : Nat) (e : Int) : List Char :=
  if 0 ≤ e then natToDigits m ++ zeroChars e.toNat
  else
    let k := (-e).toNat
    let ds := natToDigits m
    if k < ds.length then ds.take (ds.length - k) ++ '.' :: ds.drop (ds.length - k)
    else '0' :: '.' :: (zeroChars (k - ds.length) ++ ds)

/-- Model of JS `Number.prototype.toString` on parsed values (decimal
rendering; the exponential notation used for extreme magnitudes is not
modelled). -/
def jsNumToString : JsNum → List Char
  | .nan => ['N', 'a', 'N']
  | .inf neg => if neg then '-' :: infinityChars else infinityChars
  | .val neg m e =>
    let p := stripZeros m e
    if p.1 = 0 then ['0']
    else (if neg then ['-'] else []) ++ renderDec p.1 p.2

/-- The numeric canonicalization of the normalize stage:
`parseFloat(value).toString()`. -/
def canonNum (s : List Char) : List Char := jsNumToString (jsParseFloat s)

/-- Per-token action of the normalize stage. -/
def normalizeToken (token : Token) : Token :=
  if token.type = .word then { token with value := toLowerStr token.value }
  else if token.type = .number then { token with value := canonNum token.value }
  else token

/-- The normalize stage of `normalize.ts`: lowercase word tokens,
canonicalize number tokens, lowercase every entity value. -/
def normalize (input : IntentResult) : IntentResult :=
  { input with
    tokens := input.tokens.map normalizeToken,
    entities := input.entities.map (fun entity => { entity with value := toLowerStr entity.value }) }

/-! ## Pipeline registration -/

/-- A pipeline stage; the asynchronous wrapper of the source is modelled by
the completed transformation. -/
def PipelineComponent : Type := IntentResult → IntentResult

/-- The pipeline object: the ordered component list plus the fields fixed at
construction (tokenizer and config), abstracted as `rest`. -/
structure Pipeline (σ : Type) where
  components : List PipelineComponent
  rest : σ

/-- The `use` registration method: append and return the pipeline. -/
def Pipeline.use (p : Pipeline σ) (component : PipelineComponent) : Pipeline σ :=
  { p with components := p.components ++ [component] }

/-- The `addCustomProcessor` registration method. -/
def Pipeline.addCustomProcessor (p : Pipeline σ) (component : PipelineComponent) : Pipeline σ :=
  { p with components := p.components ++ [component] }

/-! ## The span invariant of §3 of the specification -/

/-- Invariant claimed for every appended token and entity:
`0 ≤ start < end ≤ length(text)` and `value = text[start:end]` (the lower
bound is automatic over `Nat`). -/
def spanInv (cs : List Char) (e : Entity) : Prop :=
  e.start < e.endPos ∧ e.endPos ≤ cs.length ∧ e.value = slice cs e.start e.endPos

/-- The shape claimed for email entity values: exactly one `@`; a non-empty
local part over `[A-Za-z0-9._%+-]`; a domain of dot-separated NON-EMPTY
labels over alphanumerics and hyphens; an alphabetic final label of length
at least two.  This follows the claim's wording, for comparison with what
the extractor actually produces. -/
def claimedEmailShape (v : List Char) : Bool :=
  match splitOnCharL '@' v with
  | [lp, rest] =>
    !lp.isEmpty && lp.all isLocalChar &&
    (let labels := splitOnCharL '.' rest
     decide (2 ≤ labels.length) &&
     labels.dropLast.all (fun lab =>
       !lab.isEmpty && lab.all (fun c => c.isAlpha || c.isDigit || c == '-')) &&
     (let tld := labels.getLastD []
      tld.all Char.isAlpha && decide (2 ≤ tld.length)))
  | _ => false

/-! ## Generic list lemmas -/

theorem startsWithL_take : ∀ pat s : List Char, startsWithL pat s = true →
    s.take pat.length = pat
  | [], _, _ => rfl
  | _ :: _, [], h => by simp [startsWithL] at h
  | a :: ps, b :: ss, h => by
    simp only [startsWithL] at h
    split at h
    · next hab =>
      simpa [List.take, hab] using startsWithL_take ps ss h
    · exact absurd h (by simp)

theorem startsWithL_le : ∀ pat s : List Char, startsWithL pat s = true →
    pat.length ≤ s.length
  | [], _, _ => Nat.zero_le _
  | _ :: _, [], h => by simp [startsWithL] at h
  | _ :: ps, _ :: ss, h => by
    simp only [startsWithL] at h
    split at h
    · simpa using startsWithL_le ps ss h
    · exact absurd h (by simp)

theorem startsWithL_self_append : ∀ pat r : List Char, startsWithL pat (pat ++ r) = true
  | [], _ => rfl
  | a :: ps, r => by simp [startsWithL, startsWithL_self_append ps r]

theorem indexOfAux_sound (pat : List Char) : ∀ s : List Char, ∀ i j : Nat,
    indexOfAux pat s i = some j →
    ∃ k, j = i + k ∧ startsWithL pat (s.drop k) = true := by
  intro s
  induction s with
  | nil =>
    intro i j h
    simp only [indexOfAux] at h
    split at h
    · next hsw =>
      refine ⟨0, ?_, by simpa using hsw⟩
      have : i = j := by simpa using h
      omega
    · exact absurd h (by simp)
  | cons c t ih =>
    intro i j h
    simp only [indexOfAux] at h
    split at h
    · next hsw =>
      refine ⟨0, ?_, by simpa using hsw⟩
      have : i = j := by simpa using h
      omega
    · obtain ⟨k, hk, hs⟩ := ih (i + 1) j h
      exact ⟨k + 1, by omega, by simpa using hs⟩

theorem indexOfAux_isSome (pat : List Char) : ∀ s : List Char, ∀ k i : Nat,
    startsWithL pat (s.drop k) = true → (indexOfAux pat s i).isSome := by
  intro s
  induction s with
  | nil =>
    intro k i h
    simp only [List.drop_nil] at h
    simp [indexOfAux, h]
  | cons c t ih =>
    intro k i h
    match k with
    | 0 =>
      simp only [List.drop_zero] at h
      simp [indexOfAux, h]
    | k + 1 =>
      simp only [indexOfAux]
      split
      · simp
      · exact ih k (i + 1) (by simpa using h)

theorem indexOfSub_sound (cs pat : List Char) (j : Nat)
    (h : indexOfSub cs pat = some j) : startsWithL pat (cs.drop j) = true := by
  obtain ⟨k, hk, hs⟩ := indexOfAux_sound pat cs 0 j h
  simpa [hk] using hs

theorem indexOfSub_isSome (cs pat : List Char) (k : Nat)
    (h : startsWithL pat (cs.drop k) = true) : (indexOfSub cs pat).isSome :=
  indexOfAux_isSome pat cs k 0 h

theorem takeWhile_append_all {p : Char → Bool} :
    ∀ {a : List Char} (b : List Char), (∀ c ∈ a, p c = true) →
    (a ++ b).takeWhile p = a ++ b.takeWhile p
  | [], b, _ => by simp
  | c :: t, b, h => by
    have hc : p c = true := h c (by simp)
    simp only [List.cons_append, List.takeWhile_cons, hc, if_true]
    simpa using takeWhile_append_all (a := t) b (fun x hx => h x (by simp [hx]))

theorem dropWhile_append_all {p : Char → Bool} :
    ∀ {a : List Char} (b : List Char), (∀ c ∈ a, p c = true) →
    (a ++ b).dropWhile p = b.dropWhile p
  | [], b, _ => by simp
  | c :: t, b, h => by
    have hc : p c = true := h c (by simp)
    simp only [List.cons_append, List.dropWhile_cons, hc, if_true]
    exact dropWhile_append_all (a := t) b (fun x hx => h x (by simp [hx]))

theorem length_takeWhile_le (p : Char → Bool) : ∀ l : List Char,
    (l.takeWhile p).length ≤ l.length
  | [] => Nat.le_refl _
  | c :: t => by
    simp only [List.takeWhile_cons]
    split
    · simpa using length_takeWhile_le p t
    · simp

theorem take_of_le_takeWhile (p : Char → Bool) : ∀ (l : List Char) (k : Nat),
    k ≤ (l.takeWhile p).length → l.take k = (l.takeWhile p).take k
  | _, 0, _ => by simp
  | [], k + 1, h => by simp at h
  | c :: t, k + 1, h => by
    simp only [List.takeWhile_cons] at h ⊢
    split at h
    · next hc =>
      simp only [hc, List.take_succ_cons, if_true]
      have := take_of_le_takeWhile p t k (by simpa using h)
      simp [this]
    · simp at h

theorem take_takeWhile_length (p : Char → Bool) (l : List Char) :
    l.take (l.takeWhile p).length = l.takeWhile p := by
  rw [take_of_le_takeWhile p l _ (Nat.le_refl _), List.take_length]

/-! ## Email extractor lemmas -/

theorem domainSearch_sound (s2 : List Char) : ∀ k0 d : Nat,
    domainSearch s2 k0 = some d →
    ∃ k, 1 ≤ k ∧ k ≤ k0 ∧ k < s2.length ∧ s2.getD k ' ' = '.' ∧
      2 ≤ ((s2.drop (k + 1)).takeWhile Char.isAlpha).length ∧
      d = k + 1 + ((s2.drop (k + 1)).takeWhile Char.isAlpha).length := by
  intro k0
  induction k0 with
  | zero => intro d h; simp [domainSearch] at h
  | succ k ih =>
    intro d h
    simp only [domainSearch] at h
    split at h
    · next n heq =>
      simp only [tryDomainSplit] at heq
      split at heq
      · next hdot =>
        split at heq
        · next ha =>
          obtain ⟨rfl⟩ : n = d := by simpa using h
          exact ⟨k + 1, by omega, Nat.le_refl _, hdot.2, hdot.1, ha, by simpa using heq.symm⟩
        · exact absurd heq (by simp)
      · exact absurd heq (by simp)
    · next heq =>
      obtain ⟨k', h1, h2, h3, h4, h5, h6⟩ := ih d h
      exact ⟨k', h1, by omega, h3, h4, h5, h6⟩

/-- Structure of a successful email match: the matched value decomposes as
local part, `@`, dotted domain run, literal dot, and alphabetic tail. -/
theorem matchEmailHere_sound (s : List Char) (n : Nat)
    (h : matchEmailHere s = some n) :
    ∃ lp dp t : List Char,
      s.take n = lp ++ '@' :: (dp ++ '.' :: t) ∧
      lp ≠ [] ∧ (∀ c ∈ lp, isLocalChar c = true) ∧
      dp ≠ [] ∧ (∀ c ∈ dp, isDomainChar c = true) ∧
      (∀ c ∈ t, c.isAlpha = true) ∧ 2 ≤ t.length ∧
      1 ≤ n ∧ n ≤ s.length := by
  simp only [matchEmailHere] at h
  split at h
  · exact absurd h (by simp)
  · next hl =>
    set l := (s.takeWhile isLocalChar).length with hldef
    split at h
    · next s2 hdrop =>
      split at h
      · next d hdm =>
        obtain ⟨rfl⟩ : l + 1 + d = n := by simpa using h
        simp only [domainMatch] at hdm
        obtain ⟨k, hk1, hk2, hk3, hkdot, hka, hkd⟩ :=
          domainSearch_sound s2 _ _ hdm
        set a := ((s2.drop (k + 1)).takeWhile Char.isAlpha).length with hadef
        have hs : s = s.takeWhile isLocalChar ++ '@' :: s2 := by
          conv_lhs => rw [← List.take_append_drop l s]
          rw [take_takeWhile_length, hdrop]
        have hslen : s.length = l + 1 + s2.length := by
          conv_lhs => rw [hs]
          simp only [List.length_append, List.length_cons, hldef]
          omega
        -- the three components
        refine ⟨s.takeWhile isLocalChar, s2.take k, (s2.drop (k + 1)).takeWhile Char.isAlpha,
          ?_, ?_, ?_, ?_, ?_, ?_, ?_, ?_, ?_⟩
        · -- decomposition of the matched prefix
          have hs2k : s2.drop k = '.' :: s2.drop (k + 1) := by
            have := List.drop_eq_getElem_cons (l := s2) (n := k) hk3
            rwa [show s2[k] = '.' from by
              rw [← List.getD_eq_getElem s2 ' ' hk3]; exact hkdot] at this
          have htk : (s2.drop (k + 1)).take a = (s2.drop (k + 1)).takeWhile Char.isAlpha :=
            take_takeWhile_length _ _
          conv_lhs => rw [hs]
          rw [hkd]
          have harr : l + 1 + (k + 1 + a) = l + (1 + (k + (1 + a))) := by omega
          rw [harr, hldef, List.take_append]
          congr 1
          rw [show 1 + (k + (1 + a)) = (k + (1 + a)) + 1 from by omega, List.take_succ_cons]
          congr 1
          rw [List.take_add, hs2k]
          congr 1
          rw [show 1 + a = a + 1 from by omega, List.take_succ_cons, htk]
        · -- local part non-empty
          intro hnil
          exact hl (by simp [hldef, hnil])
        · exact fun c hc => List.mem_takeWhile_imp hc
        · -- domain run non-empty
          have hlen : (s2.take k).length = min k s2.length := List.length_take _ _
          intro hnil
          rw [hnil] at hlen
          simp only [List.length_nil] at hlen
          omega
        · -- domain run characters
          intro c hc
          have hkr : k ≤ (s2.takeWhile isDomainChar).length := by omega
          rw [take_of_le_takeWhile isDomainChar s2 k hkr] at hc
          exact List.mem_takeWhile_imp (List.take_subset _ _ hc)
        · exact fun c hc => List.mem_takeWhile_imp hc
        · exact hka
        · omega
        · -- bound on the match length
          have halen : a ≤ s2.length - (k + 1) := by
            calc a ≤ (s2.drop (k + 1)).length := length_takeWhile_le _ _
              _ = s2.length - (k + 1) := List.length_drop _ _
          omega
      · exact absurd h (by simp)
    · exact absurd h (by simp)

theorem matchEmailHere_pos {s : List Char} {n : Nat}
    (h : matchEmailHere s = some n) : 1 ≤ n :=
  (matchEmailHere_sound s n h).choose_spec.choose_spec.choose_spec.2.2.2.2.2.2.2.1

theorem matchEmailHere_le {s : List Char} {n : Nat}
    (h : matchEmailHere s = some n) : n ≤ s.length :=
  (matchEmailHere_sound s n h).choose_spec.choose_spec.choose_spec.2.2.2.2.2.2.2.2

/-- Every entity produced by the email loop originates from a successful
match at some position. -/
theorem emailGo_mem (cs : List Char) : ∀ fuel p : Nat, ∀ e : Entity,
    e ∈ emailGo cs fuel p →
    ∃ q n, matchEmailHere (cs.drop q) = some n ∧ q < cs.length ∧
      e = ⟨.email, (cs.drop q).take n, q, q + n⟩ := by
  intro fuel
  induction fuel with
  | zero => intro p e h; simp [emailGo] at h
  | succ fuel ih =>
    intro p e h
    simp only [emailGo] at h
    split at h
    · next hp =>
      split at h
      · next n hm =>
        rcases List.mem_cons.mp h with rfl | hmem
        · exact ⟨p, n, hm, hp, rfl⟩
        · exact ih (p + n) e hmem
      · exact ih (p + 1) e h
    · simp at h

theorem emailEntities_mem {cs : List Char} {e : Entity}
    (h : e ∈ emailEntities cs) :
    ∃ q n, matchEmailHere (cs.drop q) = some n ∧ q < cs.length ∧
      e = ⟨.email, (cs.drop q).take n, q, q + n⟩ :=
  emailGo_mem cs _ 0 e h

/-- Span invariant for the email extractor. -/
theorem emailEntities_spanInv (cs : List Char) (e : Entity)
    (h : e ∈ emailEntities cs) : spanInv cs e := by
  obtain ⟨q, n, hm, hq, rfl⟩ := emailEntities_mem h
  have h1 : 1 ≤ n := matchEmailHere_pos hm
  have h2 : n ≤ (cs.drop q).length := matchEmailHere_le hm
  rw [List.length_drop] at h2
  dsimp only [spanInv]
  refine ⟨by omega, by omega, ?_⟩
  simp [slice]

/-! ## Phone extractor lemmas -/

theorem phoneSplitGo_infix : ∀ cs cur tok : List Char, tok ∈ phoneSplitGo cs cur →
    ∃ l r, cur.reverse ++ cs = l ++ tok ++ r := by
  intro cs
  induction cs with
  | nil =>
    intro cur tok h
    simp only [phoneSplitGo] at h
    split at h
    · simp at h
    · rcases List.mem_singleton.mp h with rfl
      exact ⟨[], [], by simp⟩
  | cons c rest ih =>
    intro cur tok h
    simp only [phoneSplitGo] at h
    split at h
    · split at h
      · next hcur =>
        obtain ⟨l, r, hlr⟩ := ih [] tok h
        refine ⟨cur.reverse ++ [c] ++ l, r, ?_⟩
        simp only [List.reverse_nil, List.nil_append] at hlr
        simp [hlr, List.append_assoc]
      · rcases List.mem_cons.mp h with rfl | hmem
        · exact ⟨[], c :: rest, by simp⟩
        · obtain ⟨l, r, hlr⟩ := ih [] tok hmem
          refine ⟨cur.reverse ++ [c] ++ l, r, ?_⟩
          simp only [List.reverse_nil, List.nil_append] at hlr
          simp [hlr, List.append_assoc]
    · obtain ⟨l, r, hlr⟩ := ih (c :: cur) tok h
      refine ⟨l, r, ?_⟩
      simpa [List.append_assoc] using hlr

theorem phoneSplitGo_noDelim : ∀ cs cur tok : List Char,
    tok ∈ phoneSplitGo cs cur → (∀ c ∈ cur, isPhoneDelim c = false) →
    ∀ c ∈ tok, isPhoneDelim c = false := by
  intro cs
  induction cs with
  | nil =>
    intro cur tok h hcur
    simp only [phoneSplitGo] at h
    split at h
    · simp at h
    · rcases List.mem_singleton.mp h with rfl
      intro c hc
      exact hcur c (by simpa using hc)
  | cons c rest ih =>
    intro cur tok h hcur
    simp only [phoneSplitGo] at h
    split at h
    · next hdel =>
      split at h
      · exact ih [] tok h (by simp)
      · rcases List.mem_cons.mp h with rfl | hmem
        · intro x hx
          exact hcur x (by simpa using hx)
        · exact ih [] tok hmem (by simp)
    · next hdel =>
      refine ih (c :: cur) tok h ?_
      intro x hx
      rcases List.mem_cons.mp hx with rfl | hx'
      · simpa using hdel
      · exact hcur x hx'

theorem phoneTokens_infix {cs tok : List Char} (h : tok ∈ phoneTokens cs) :
    ∃ l r, cs = l ++ tok ++ r := by
  obtain ⟨l, r, hlr⟩ := phoneSplitGo_infix cs [] tok h
  exact ⟨l, r, by simpa using hlr⟩

theorem phoneTokens_noDelim {cs tok : List Char} (h : tok ∈ phoneTokens cs) :
    ∀ c ∈ tok, isPhoneDelim c = false :=
  phoneSplitGo_noDelim cs [] tok h (by simp)

theorem phoneTokens_indexOf_isSome {cs tok : List Char} (h : tok ∈ phoneTokens cs) :
    (indexOfSub cs tok).isSome := by
  obtain ⟨l, r, rfl⟩ := phoneTokens_infix h
  refine indexOfSub_isSome _ _ l.length ?_
  rw [List.append_assoc, List.drop_left]
  exact startsWithL_self_append tok r

/-- A found index yields the span facts needed by the invariant. -/
theorem indexOfSub_span {cs tok : List Char} {i : Nat}
    (h : indexOfSub cs tok = some i) (hne : tok ≠ []) :
    slice cs i (i + tok.length) = tok ∧ i + tok.length ≤ cs.length := by
  have hsw := indexOfSub_sound cs tok i h
  have htake := startsWithL_take tok (cs.drop i) hsw
  have hlen := startsWithL_le tok (cs.drop i) hsw
  rw [List.length_drop] at hlen
  constructor
  · rw [slice, Nat.add_sub_cancel_left]
    exact htake
  · have hpos : 0 < tok.length := List.length_pos.mpr hne
    omega

/-- Inversion of the phone entity construction. -/
theorem phoneEntities_mem {cs : List Char} {e : Entity}
    (h : e ∈ phoneEntities cs) :
    ∃ tok i, tok ∈ phoneTokens cs ∧ 10 ≤ tok.length ∧
      10 ≤ tok.countP (fun c => isDigitC c) ∧
      tok.countP (fun c => isDigitC c) ≤ 15 ∧
      tok.countP (fun c => isDigitC c) +
        tok.countP (fun c => !isDigitC c && isPhoneSep c) = tok.length ∧
      indexOfSub cs tok = some i ∧
      e = ⟨.phone, tok, i, i + tok.length⟩ := by
  simp only [phoneEntities] at h
  obtain ⟨tok, htok, hf⟩ := List.mem_filterMap.mp h
  refine ⟨tok, ?_⟩
  split at hf
  · next hlen =>
    split at hf
    · next hcond =>
      split at hf
      · next i hidx =>
        exact ⟨i, htok, hlen, hcond.1, hcond.2.1, hcond.2.2, hidx, by simpa using hf.symm⟩
      · exact absurd hf (by simp)
    · exact absurd hf (by simp)
  · exact absurd hf (by simp)

/-- Span invariant for the phone extractor. -/
theorem phoneEntities_spanInv (cs : List Char) (e : Entity)
    (h : e ∈ phoneEntities cs) : spanInv cs e := by
  obtain ⟨tok, i, _, hlen, _, _, _, hidx, rfl⟩ := phoneEntities_mem h
  have hne : tok ≠ [] := by
    intro hnil
    rw [hnil] at hlen
    simp at hlen
  obtain ⟨hslice, hbound⟩ := indexOfSub_span hidx hne
  have hpos : 0 < tok.length := List.length_pos.mpr hne
  exact ⟨by dsimp; omega, by dsimp; omega, by dsimp; exact hslice.symm⟩

/-! ## Claim-side phone predicate (wording of C4) -/

/-- A delimiter-split candidate qualifies per the claim: length at least 10,
digit count between 10 and 15, and digits plus accepted separators account
for the full candidate length. -/
def phoneClaimPred (tok : List Char) : Bool :=
  decide (10 ≤ tok.length) &&
  decide (10 ≤ tok.countP (fun c => isDigitC c)) &&
  decide (tok.countP (fun c => isDigitC c) ≤ 15) &&
  decide (tok.countP (fun c => isDigitC c) +
    tok.countP (fun c => isPhoneSep c) = tok.length)

/-- The entity the claim says a qualifying candidate produces: value is the
candidate, start is the first occurrence of the candidate in the text. -/
def phoneClaimFn (cs tok : List Char) : Option Entity :=
  if phoneClaimPred tok then
    (indexOfSub cs tok).map (fun i => ⟨.phone, tok, i, i + tok.length⟩)
  else none

theorem sep_not_digit {c : Char} (h : isPhoneSep c = true) : isDigitC c = false := by
  simp only [isPhoneSep, Bool.or_eq_true, beq_iff_eq] at h
  rcases h with ((((h | h) | h) | h) | h) | h <;> subst h <;> decide

theorem countP_sep_eq (tok : List Char) :
    tok.countP (fun c => !isDigitC c && isPhoneSep c) =
    tok.countP (fun c => isPhoneSep c) := by
  refine List.countP_congr ?_
  intro c _
  constructor
  · intro h
    exact (Bool.and_eq_true _ _ |>.mp h).2
  · intro h
    simp [sep_not_digit h, h]

theorem countP_or_of_disjoint {p q : Char → Bool} : ∀ l : List Char,
    (∀ a, ¬(p a = true ∧ q a = true)) →
    l.countP p + l.countP q = l.countP (fun a => p a || q a)
  | [], _ => rfl
  | c :: t, h => by
    have ht := countP_or_of_disjoint t h
    by_cases hp : p c = true
    · have hq : ¬q c = true := fun hq => h c ⟨hp, hq⟩
      rw [List.countP_cons_of_pos _ _ hp, List.countP_cons_of_neg _ _ hq,
        List.countP_cons_of_pos _ _ (by simp [hp])]
      omega
    · by_cases hq : q c = true
      · rw [List.countP_cons_of_neg _ _ hp, List.countP_cons_of_pos _ _ hq,
          List.countP_cons_of_pos _ _ (by simp [hq])]
        omega
      · rw [List.countP_cons_of_neg _ _ hp, List.countP_cons_of_neg _ _ hq,
          List.countP_cons_of_neg _ _ (by simp [hp, hq])]
        exact ht

/-- The characters of a candidate satisfying the count equation are each a
digit or an accepted separator. -/
theorem phone_chars_digit_or_sep {tok : List Char}
    (h : tok.countP (fun c => isDigitC c) +
      tok.countP (fun c => !isDigitC c && isPhoneSep c) = tok.length) :
    ∀ c ∈ tok, isDigitC c = true ∨ isPhoneSep c = true := by
  have hdisj : ∀ a : Char, ¬((fun c => isDigitC c) a = true ∧
      (fun c => !isDigitC c && isPhoneSep c) a = true) := by
    intro a ⟨h1, h2⟩
    simp [h1] at h2
  rw [countP_or_of_disjoint tok hdisj] at h
  intro c hc
  have := List.countP_eq_length.mp h c hc
  simp only [Bool.or_eq_true, Bool.and_eq_true] at this
  rcases this with h1 | ⟨_, h2⟩
  · exact Or.inl h1
  · exact Or.inr h2

/-- The extractor's per-candidate behaviour coincides with the claim's. -/
theorem phoneEntities_eq_claim (cs : List Char) :
    phoneEntities cs = (phoneTokens cs).filterMap (phoneClaimFn cs) := by
  unfold phoneEntities
  refine List.filterMap_congr ?_
  intro tok _
  simp only [phoneClaimFn]
  split
  · next h1 =>
    split
    · next h2 =>
      obtain ⟨h2a, h2b, h2c⟩ := h2
      have h3 : tok.countP (fun c => isDigitC c) +
          tok.countP (fun c => isPhoneSep c) = tok.length := by
        rw [← countP_sep_eq tok]
        exact h2c
      have hpred : phoneClaimPred tok = true := by
        simp [phoneClaimPred, h1, h2a, h2b, h3]
      rw [if_pos hpred]
      cases hidx : indexOfSub cs tok with
      | none => simp
      | some i => simp
    · next h2 =>
      have hpred : ¬phoneClaimPred tok = true := by
        intro hp
        simp only [phoneClaimPred, Bool.and_eq_true, decide_eq_true_eq] at hp
        refine h2 ⟨hp.1.1.2, hp.1.2, ?_⟩
        rw [countP_sep_eq tok]
        exact hp.2
      simp [hpred]
  · next h1 =>
    have hpred : ¬phoneClaimPred tok = true := by
      intro hp
      simp only [phoneClaimPred, Bool.and_eq_true, decide_eq_true_eq] at hp
      exact h1 hp.1.1.1
    simp [hpred]

/-- Reported phone values contain only digits, hyphens, dots and plus
signs. -/
theorem phoneEntities_value_chars (cs : List Char) (e : Entity)
    (h : e ∈ phoneEntities cs) :
    ∀ c ∈ e.value, isDigitC c = true ∨ c = '-' ∨ c = '.' ∨ c = '+' := by
  obtain ⟨tok, i, htok, _, _, _, hcount, _, rfl⟩ := phoneEntities_mem h
  intro c hc
  have hc' : c ∈ tok := hc
  rcases phone_chars_digit_or_sep hcount c hc' with hd | hsep
  · exact Or.inl hd
  · have hnd := phoneTokens_noDelim htok c hc'
    simp only [isPhoneSep, Bool.or_eq_true, beq_iff_eq] at hsep
    rcases hsep with ((((h' | h') | h') | h') | h') | h' <;> subst h'
    · exact Or.inr (Or.inl rfl)
    · exact Or.inr (Or.inr (Or.inl rfl))
    · exact absurd hnd (by decide)
    · exact absurd hnd (by decide)
    · exact absurd hnd (by decide)
    · exact Or.inr (Or.inr (Or.inr rfl))

/-! ## URL extractor lemmas -/

theorem indexOfFrom_sound {cs pat : List Char} {start i : Nat}
    (h : indexOfFrom cs pat start = some i) :
    startsWithL pat (cs.drop i) = true ∧ start ≤ i := by
  simp only [indexOfFrom, Option.map_eq_some'] at h
  obtain ⟨j, hj, rfl⟩ := h
  obtain ⟨k, hk, hs⟩ := indexOfAux_sound pat _ 0 j hj
  rw [List.drop_drop] at hs
  subst hk
  constructor
  · simpa [Nat.add_comm] using hs
  · omega

/-- Span invariant for one protocol pass of the URL extractor. -/
theorem urlScanGo_spanInv (cs proto : List Char) (hproto : proto ≠ []) :
    ∀ fuel s : Nat, ∀ e : Entity, e ∈ urlScanGo cs proto fuel s → spanInv cs e := by
  intro fuel
  induction fuel with
  | zero => intro s e h; simp [urlScanGo] at h
  | succ fuel ih =>
    intro s e h
    simp only [urlScanGo] at h
    split at h
    · split at h
      · simp at h
      · next protocolIndex hidx =>
        have hsw := (indexOfFrom_sound hidx).1
        have hple := startsWithL_le _ _ hsw
        rw [List.length_drop] at hple
        have hppos : 0 < proto.length := List.length_pos.mpr hproto
        have hpin : protocolIndex + proto.length ≤ cs.length := by
          by_cases hc : protocolIndex ≤ cs.length
          · omega
          · exfalso
            have : cs.length - protocolIndex = 0 := by omega
            omega
        have htw : ((cs.drop (protocolIndex + proto.length)).takeWhile
            (fun c => !isUrlStop c)).length ≤ cs.length - (protocolIndex + proto.length) := by
          calc _ ≤ (cs.drop (protocolIndex + proto.length)).length := length_takeWhile_le _ _
            _ = cs.length - (protocolIndex + proto.length) := List.length_drop _ _
        split at h
        · rcases List.mem_cons.mp h with rfl | hmem
          · exact ⟨by dsimp; omega, by dsimp; omega, by dsimp⟩
          · exact ih _ e hmem
        · exact ih _ e h
    · simp at h

/-- Span invariant for the URL extractor. -/
theorem urlEntities_spanInv (cs : List Char) (e : Entity)
    (h : e ∈ urlEntities cs) : spanInv cs e := by
  rcases List.mem_append.mp h with h' | h'
  · exact urlScanGo_spanInv cs _ (by simp) _ 0 e h'
  · exact urlScanGo_spanInv cs _ (by simp) _ 0 e h'

/-! ## Number extractor lemmas -/

theorem scanNumGo_ge (cs : List Char) : ∀ fuel i : Nat, ∀ b : Bool,
    i ≤ scanNumGo cs fuel i b := by
  intro fuel
  induction fuel with
  | zero => intro i b; exact Nat.le_refl _
  | succ fuel ih =>
    intro i b
    simp only [scanNumGo]
    split
    · split
      · exact le_trans (by omega) (ih (i + 1) b)
      · split
        · split
          · exact le_trans (by omega) (ih (i + 1) true)
          · exact Nat.le_refl _
        · exact Nat.le_refl _
    · exact Nat.le_refl _

theorem scanNumGo_le (cs : List Char) : ∀ fuel i : Nat, ∀ b : Bool,
    i ≤ cs.length → scanNumGo cs fuel i b ≤ cs.length := by
  intro fuel
  induction fuel with
  | zero => intro i b h; exact h
  | succ fuel ih =>
    intro i b h
    simp only [scanNumGo]
    split
    · next hlt =>
      split
      · exact ih (i + 1) b (by omega)
      · split
        · split
          · exact ih (i + 1) true (by omega)
          · exact h
        · exact h
    · exact h

theorem scanNum_ge (cs : List Char) (i : Nat) (b : Bool) : i ≤ scanNum cs i b :=
  scanNumGo_ge cs _ i b

theorem scanNum_le (cs : List Char) (i : Nat) (b : Bool) (h : i ≤ cs.length) :
    scanNum cs i b ≤ cs.length :=
  scanNumGo_le cs _ i b h

/-- The candidate scan only advances from an in-bounds position. -/
theorem scanNum_progress_lt (cs : List Char) {i : Nat} {b : Bool}
    (h : i < scanNum cs i b) : i < cs.length := by
  by_contra hc
  have h0 : cs.length - i = 0 := by omega
  rw [scanNum, h0] at h
  simp [scanNumGo] at h

/-- Entities appended by the number loop satisfy the span invariant; every
entity of a returned list is either inherited from the accumulator or
satisfies the invariant. -/
theorem numLoop_spanInv (cs : List Char) : ∀ fuel i : Nat, ∀ acc res : List Entity,
    numLoop cs fuel i acc = some res →
    ∀ e ∈ res, e ∈ acc ∨ spanInv cs e := by
  intro fuel
  induction fuel with
  | zero => intro i acc res h; simp [numLoop] at h
  | succ fuel ih =>
    intro i acc res h
    simp only [numLoop] at h
    split at h
    · split at h
      · next hj =>
        intro e he
        rcases ih _ _ res h e he with hacc | hinv
        · -- the accumulator passed on may have gained the new entity
          split at hacc
          · next hlt =>
            split at hacc
            · rcases List.mem_append.mp hacc with h' | h'
              · exact Or.inl h'
              · rcases List.mem_singleton.mp h' with rfl
                refine Or.inr ⟨by dsimp; exact hlt, ?_, by dsimp⟩
                dsimp
                exact scanNum_le cs _ false (by omega)
            · exact Or.inl hacc
          · exact Or.inl hacc
        · exact Or.inr hinv
      · intro e he
        obtain rfl : acc = res := by simpa using h
        exact Or.inl he
    · intro e he
      obtain rfl : acc = res := by simpa using h
      exact Or.inl he

/-- When the find-start and candidate scans both leave position `j` in
place, the outer loop never terminates from `j`: the scan position is
stuck. -/
theorem numLoop_stuck (cs : List Char) (j : Nat) (hj : findNumStart cs j = j)
    (hs : scanNum cs j false = j) (hlt : j < cs.length) :
    ∀ fuel : Nat, ∀ acc : List Entity, numLoop cs fuel j acc = none := by
  intro fuel
  induction fuel with
  | zero => intro acc; rfl
  | succ fuel ih =>
    intro acc
    simp only [numLoop, hj, hs, if_pos hlt, Nat.lt_irrefl, if_false]
    exact ih acc

/-! ### Character facts feeding the `isNumber` lemmas -/

theorem digit_ne {c x : Char} (h : isDigitC c = true) (hx : isDigitC x = false) :
    c ≠ x := by
  intro he
  subst he
  rw [h] at hx
  exact absurd hx (by simp)

theorem digit_not_ws {c : Char} (h : isDigitC c = true) : isWsC c = false := by
  by_contra hws
  rw [Bool.not_eq_false] at hws
  simp only [isWsC, Bool.or_eq_true, beq_iff_eq] at hws
  rcases hws with ((((h' | h') | h') | h') | h') | h' <;> subst h' <;>
    exact absurd h (by decide)

/-- A string headed by a digit parses to a finite value or overflows to
positive infinity; it never parses to NaN. -/
theorem parse_digit_head {c : Char} (rest : List Char) (h : isDigitC c = true) :
    isNumber (c :: rest) = true ∨ jsParseFloat (c :: rest) = .inf false := by
  have hd : c.isDigit = true := h
  have hws : isWsC c = false := digit_not_ws h
  have hm : ¬c = '-' := digit_ne h (by decide)
  have hp : ¬c = '+' := digit_ne h (by decide)
  have hI : ¬('I' = c) := fun he => digit_ne h (by decide) he.symm
  have hres : ∃ m : Nat, ∃ e : Int, jsParseFloat (c :: rest) =
      if jsOverflow m e then JsNum.inf false else JsNum.val false m e := by
    simp only [jsParseFloat, List.dropWhile_cons, hws, Bool.false_eq_true,
      if_false, splitSign, if_neg hm, if_neg hp]
    simp only [parseAfterSign, infinityChars, startsWithL, if_neg hI, Bool.false_eq_true,
      if_false, List.takeWhile_cons, hd, if_true, List.isEmpty_cons, Bool.false_and]
    exact ⟨_, _, rfl⟩
  obtain ⟨m, e, hres⟩ := hres
  by_cases hov : jsOverflow m e = true
  · refine Or.inr ?_
    rw [hres, if_pos hov]
  · refine Or.inl ?_
    simp only [isNumber, hres, if_neg hov]

/-- A string headed by a dot and then a digit parses to a finite value or
overflows to positive infinity; it never parses to NaN. -/
theorem parse_dot_digit {d : Char} (rest : List Char) (hd : isDigitC d = true) :
    isNumber ('.' :: d :: rest) = true ∨ jsParseFloat ('.' :: d :: rest) = .inf false := by
  have hd' : d.isDigit = true := hd
  have hws : isWsC '.' = false := by decide
  have hnm : ¬('.' : Char) = '-' := by decide
  have hnp : ¬('.' : Char) = '+' := by decide
  have hnI : ¬('I' : Char) = '.' := by decide
  have hndig : ('.' : Char).isDigit = false := by decide
  have hres : ∃ m : Nat, ∃ e : Int, jsParseFloat ('.' :: d :: rest) =
      if jsOverflow m e then JsNum.inf false else JsNum.val false m e := by
    simp only [jsParseFloat, List.dropWhile_cons, hws, Bool.false_eq_true, if_false,
      splitSign, if_neg hnm, if_neg hnp]
    simp only [parseAfterSign, infinityChars, startsWithL, if_neg hnI, Bool.false_eq_true,
      if_false, List.takeWhile_cons, hndig, List.dropWhile_cons, fracPart, hd', if_true,
      List.isEmpty_cons, Bool.and_false]
    exact ⟨_, _, rfl⟩
  obtain ⟨m, e, hres⟩ := hres
  by_cases hov : jsOverflow m e = true
  · refine Or.inr ?_
    rw [hres, if_pos hov]
  · refine Or.inl ?_
    simp only [isNumber, hres, if_neg hov]

/-- A candidate the scan advanced past parses to a finite value unless its
magnitude overflows binary64: the validation rejects collected candidates
only through the overflow to infinity, never as NaN. -/
theorem scanNum_accept_or_overflow (cs : List Char) (i : Nat)
    (h : i < scanNum cs i false) :
    isNumber (slice cs i (scanNum cs i false)) = true ∨
    jsParseFloat (slice cs i (scanNum cs i false)) = .inf false := by
  have hlen : i < cs.length := by
    by_contra hc
    have h0 : cs.length - i = 0 := by omega
    rw [scanNum, h0] at h
    simp [scanNumGo] at h
  obtain ⟨f, hf⟩ : ∃ f, cs.length - i = f + 1 := ⟨cs.length - i - 1, by omega⟩
  have hdropi : cs.drop i = cs.getD i ' ' :: cs.drop (i + 1) := by
    rw [List.getD_eq_getElem cs ' ' hlen]
    exact List.drop_eq_getElem_cons hlen
  rw [scanNum, hf] at h ⊢
  simp only [scanNumGo, if_pos hlen] at h ⊢
  by_cases hdig : isDigitC (cs.getD i ' ') = true
  · rw [if_pos hdig] at h ⊢
    have hge : i + 1 ≤ scanNumGo cs f (i + 1) false := scanNumGo_ge cs f (i + 1) false
    rw [slice, hdropi]
    have hsub : scanNumGo cs f (i + 1) false - i =
        (scanNumGo cs f (i + 1) false - i - 1) + 1 := by omega
    rw [hsub, List.take_succ_cons]
    exact parse_digit_head _ hdig
  · rw [if_neg hdig] at h ⊢
    by_cases hdot : cs.getD i ' ' = '.' ∧ (!false) = true
    · rw [if_pos hdot] at h ⊢
      by_cases hflank : 0 < i ∧ isDigitC (cs.getD (i - 1) ' ') = true ∧
          i + 1 < cs.length ∧ isDigitC (cs.getD (i + 1) ' ') = true
      · rw [if_pos hflank] at h ⊢
        obtain ⟨_, _, hi1, hdig1⟩ := hflank
        obtain ⟨f', hf'⟩ : ∃ f', f = f' + 1 := ⟨f - 1, by omega⟩
        subst hf'
        simp only [scanNumGo, if_pos hi1, if_pos hdig1] at h ⊢
        have hge : i + 2 ≤ scanNumGo cs f' (i + 1 + 1) true :=
          scanNumGo_ge cs f' (i + 1 + 1) true
        have hdrop1 : cs.drop (i + 1) = cs.getD (i + 1) ' ' :: cs.drop (i + 2) := by
          rw [List.getD_eq_getElem cs ' ' hi1]
          exact List.drop_eq_getElem_cons hi1
        rw [slice, hdropi, hdot.1, hdrop1]
        have hsub : scanNumGo cs f' (i + 1 + 1) true - i =
            ((scanNumGo cs f' (i + 1 + 1) true - i - 2) + 1) + 1 := by omega
        rw [hsub, List.take_succ_cons, List.take_succ_cons]
        exact parse_dot_digit _ hdig1
      · rw [if_neg hflank] at h
        omega
    · rw [if_neg hdot] at h
      omega

/-! ## Digit rendering lemmas -/

theorem digitVal_digitChar (d : Nat) (h : d < 10) : digitVal (digitChar d) = d := by
  interval_cases d <;> decide

theorem isDigit_digitChar (d : Nat) (h : d < 10) : (digitChar d).isDigit = true := by
  interval_cases d <;> decide

theorem natToDigits_all_digit : ∀ n : Nat, ∀ c ∈ natToDigits n, c.isDigit = true := by
  intro n
  induction n using Nat.strong_induction_on with
  | _ n ih =>
    rw [natToDigits]
    split
    · next h =>
      intro c hc
      rcases List.mem_singleton.mp hc with rfl
      exact isDigit_digitChar n h
    · next h =>
      intro c hc
      rcases List.mem_append.mp hc with h1 | h1
      · exact ih (n / 10) (Nat.div_lt_self (by omega) (by omega)) c h1
      · rcases List.mem_singleton.mp h1 with rfl
        exact isDigit_digitChar _ (Nat.mod_lt _ (by omega))

theorem natToDigits_ne_nil (n : Nat) : natToDigits n ≠ [] := by
  rw [natToDigits]
  split
  · simp
  · simp

theorem foldl_digits : ∀ ds : List Char, ∀ acc : Nat,
    ds.foldl (fun a c => a * 10 + digitVal c) acc = acc * 10 ^ ds.length + digitsToNat ds
  | [], acc => by simp [digitsToNat]
  | c :: t, acc => by
    have h1 := foldl_digits t (acc * 10 + digitVal c)
    have h2 := foldl_digits t (digitVal c)
    simp only [List.foldl_cons, List.length_cons, digitsToNat] at h1 h2 ⊢
    rw [h1]
    have h3 : (0 * 10 + digitVal c) = digitVal c := by omega
    rw [h3, h2]
    ring

theorem digitsToNat_append (a b : List Char) :
    digitsToNat (a ++ b) = digitsToNat a * 10 ^ b.length + digitsToNat b := by
  rw [digitsToNat, List.foldl_append, ← digitsToNat, foldl_digits]

theorem digitsToNat_natToDigits : ∀ n : Nat, digitsToNat (natToDigits n) = n := by
  intro n
  induction n using Nat.strong_induction_on with
  | _ n ih =>
    rw [natToDigits]
    split
    · next h =>
      show digitsToNat [digitChar n] = n
      simp [digitsToNat, digitVal_digitChar n h]
    · next h =>
      rw [digitsToNat_append]
      rw [ih (n / 10) (Nat.div_lt_self (by omega) (by omega))]
      have hmod : digitsToNat [digitChar (n % 10)] = n % 10 := by
        simp [digitsToNat, digitVal_digitChar _ (Nat.mod_lt _ (by omega))]
      rw [hmod]
      simp only [List.length_singleton, pow_one]
      omega

theorem digitsToNat_cons_zero (l : List Char) :
    digitsToNat ('0' :: l) = digitsToNat l := by
  have h0 : digitVal '0' = 0 := by decide
  simp [digitsToNat, List.foldl_cons, h0]

theorem digitsToNat_zeroChars : ∀ k : Nat, digitsToNat (zeroChars k) = 0
  | 0 => rfl
  | k + 1 => by
    rw [zeroChars, List.replicate_succ, ← zeroChars, digitsToNat_cons_zero]
    exact digitsToNat_zeroChars k

theorem zeroChars_all_digit (k : Nat) : ∀ c ∈ zeroChars k, c.isDigit = true := by
  intro c hc
  rw [zeroChars, List.mem_replicate] at hc
  rw [hc.2]
  decide

/-! ## stripZeros lemmas -/

theorem stripZeros_of_mod {m : Nat} (e : Int) (h : m % 10 ≠ 0) :
    stripZeros m e = (m, e) := by
  rw [stripZeros, dif_neg]
  rintro ⟨_, h2⟩
  exact h h2

theorem stripZeros_zero (e : Int) : stripZeros 0 e = (0, e) := by
  rw [stripZeros, dif_neg]
  rintro ⟨h1, _⟩
  exact h1 rfl

theorem stripZeros_canon : ∀ m : Nat, ∀ e : Int,
    (stripZeros m e).1 = 0 ∨ (stripZeros m e).1 % 10 ≠ 0 := by
  intro m
  induction m using Nat.strong_induction_on with
  | _ m ih =>
    intro e
    rw [stripZeros]
    split
    · next h => exact ih (m / 10) (Nat.div_lt_self (by omega) (by omega)) (e + 1)
    · next h =>
      push_neg at h
      by_cases hm : m = 0
      · left; simpa using hm
      · right; simpa using h hm

theorem stripZeros_mul_pow {m : Nat} (hm : m ≠ 0) (h10 : m % 10 ≠ 0) :
    ∀ k : Nat, ∀ e : Int, stripZeros (m * 10 ^ k) e = (m, e + k) := by
  intro k
  induction k with
  | zero => intro e; simpa using stripZeros_of_mod e h10
  | succ k ih =>
    intro e
    rw [stripZeros, dif_pos]
    · have hdiv : m * 10 ^ (k + 1) / 10 = m * 10 ^ k := by
        rw [pow_succ, ← Nat.mul_assoc]
        exact Nat.mul_div_cancel _ (by omega)
      rw [hdiv, ih (e + 1)]
      have : e + 1 + (k : Int) = e + ((k : Int) + 1) := by ring
      rw [this]
      norm_cast
    · constructor
      · exact Nat.mul_ne_zero hm (pow_ne_zero _ (by omega))
      · rw [pow_succ, ← Nat.mul_assoc]
        exact Nat.mul_mod_left _ _

/-! ## Parsing rendered decimal strings -/

theorem parseAfterSign_digits (neg : Bool) (D : List Char) (hne : D ≠ [])
    (hall : ∀ c ∈ D, c.isDigit = true) :
    parseAfterSign neg D =
      if jsOverflow (digitsToNat D) 0 then .inf neg else .val neg (digitsToNat D) 0 := by
  obtain ⟨c, t, rfl⟩ := List.exists_cons_of_ne_nil hne
  have hc : c.isDigit = true := hall c (by simp)
  have hI : ¬('I' = c) := by
    intro he
    rw [← he] at hc
    exact absurd hc (by decide)
  have htw : (c :: t).takeWhile Char.isDigit = c :: t :=
    List.takeWhile_eq_self_iff.mpr hall
  have hdw : (c :: t).dropWhile Char.isDigit = [] :=
    List.dropWhile_eq_nil_iff.mpr hall
  simp only [parseAfterSign, infinityChars, startsWithL, if_neg hI, Bool.false_eq_true,
    if_false, htw, hdw]
  simp [fracPart, afterFrac, expPart]

theorem parseAfterSign_digits_dot (neg : Bool) (D1 D2 : List Char)
    (h1 : D1 ≠ []) (hall1 : ∀ c ∈ D1, c.isDigit = true)
    (h2 : D2 ≠ []) (hall2 : ∀ c ∈ D2, c.isDigit = true) :
    parseAfterSign neg (D1 ++ '.' :: D2) =
      if jsOverflow (digitsToNat (D1 ++ D2)) (-(D2.length : Int)) then .inf neg
      else .val neg (digitsToNat (D1 ++ D2)) (-(D2.length : Int)) := by
  obtain ⟨c, t, rfl⟩ := List.exists_cons_of_ne_nil h1
  have hc : c.isDigit = true := hall1 c (by simp)
  have hI : ¬('I' = c) := by
    intro he
    rw [← he] at hc
    exact absurd hc (by decide)
  have hdot : ('.' : Char).isDigit = false := by decide
  have htw : ((c :: t) ++ '.' :: D2).takeWhile Char.isDigit = c :: t := by
    rw [takeWhile_append_all _ hall1, List.takeWhile_cons, hdot]
    simp
  have hdw : ((c :: t) ++ '.' :: D2).dropWhile Char.isDigit = '.' :: D2 := by
    rw [dropWhile_append_all _ hall1, List.dropWhile_cons, hdot]
    simp
  have htw2 : D2.takeWhile Char.isDigit = D2 := List.takeWhile_eq_self_iff.mpr hall2
  have hdw2 : D2.dropWhile Char.isDigit = [] := List.dropWhile_eq_nil_iff.mpr hall2
  have hsw : startsWithL infinityChars ((c :: t) ++ '.' :: D2) = false := by
    simp only [infinityChars, startsWithL, List.cons_append, if_neg hI]
  simp only [parseAfterSign, hsw, Bool.false_eq_true, if_false, htw, hdw]
  simp only [fracPart, if_pos rfl, afterFrac, htw2, hdw2, expPart]
  have hne2 : D2.isEmpty = false := by
    obtain ⟨d, u, rfl⟩ := List.exists_cons_of_ne_nil h2
    simp
  simp [hne2, List.isEmpty_cons]

theorem jsParseFloat_sign_digit (neg : Bool) (c : Char) (t : List Char)
    (hc : c.isDigit = true) :
    jsParseFloat ((if neg then ['-'] else []) ++ c :: t) = parseAfterSign neg (c :: t) := by
  have hws : isWsC c = false := digit_not_ws hc
  have hm : ¬c = '-' := digit_ne hc (by decide)
  have hp : ¬c = '+' := digit_ne hc (by decide)
  cases neg with
  | false =>
    simp only [Bool.false_eq_true, if_false, List.nil_append, jsParseFloat,
      List.dropWhile_cons, hws, splitSign, if_neg hm, if_neg hp]
  | true =>
    have hwsm : isWsC '-' = false := by decide
    simp only [if_true, List.cons_append, List.nil_append, jsParseFloat,
      List.dropWhile_cons, hwsm, Bool.false_eq_true, if_false, splitSign, if_pos rfl]

/-- The overflow predicate depends only on the denoted decimal value: one
strip step (moving a factor of ten from the mantissa to the exponent)
leaves it unchanged. -/
theorem jsOverflow_step (m : Nat) (e : Int) (_hm : m ≠ 0) (hmod : m % 10 = 0) :
    jsOverflow (m / 10) (e + 1) = jsOverflow m e := by
  have hdvd : m = m / 10 * 10 := by omega
  by_cases he : 0 ≤ e
  · have he1 : 0 ≤ e + 1 := by omega
    simp only [jsOverflow, if_pos he, if_pos he1]
    have htn : (e + 1).toNat = e.toNat + 1 := by omega
    have hmm : m / 10 * 10 ^ (e.toNat + 1) = m * 10 ^ e.toNat := by
      calc m / 10 * 10 ^ (e.toNat + 1) = m / 10 * (10 ^ e.toNat * 10) := by rw [pow_succ]
        _ = m / 10 * 10 * 10 ^ e.toNat := by ring
        _ = m * 10 ^ e.toNat := by rw [← hdvd]
    rw [htn, hmm]
  · by_cases he1 : 0 ≤ e + 1
    · have hez : e = -1 := by omega
      subst hez
      simp only [jsOverflow, if_pos he1, if_neg he]
      rw [decide_eq_decide]
      have h1 : ((-1 : Int) + 1).toNat = 0 := by omega
      have h2 : (-(-1 : Int)).toNat = 1 := by omega
      rw [h1, h2, pow_zero, mul_one, pow_one]
      generalize overflowBound = T
      omega
    · simp only [jsOverflow, if_neg he, if_neg he1]
      rw [decide_eq_decide]
      have htn : (-e).toNat = (-(e + 1)).toNat + 1 := by omega
      rw [htn, pow_succ, ← Nat.mul_assoc]
      generalize overflowBound * 10 ^ (-(e + 1)).toNat = S
      omega

theorem overflowBound_pos : 0 < overflowBound := by
  rw [overflowBound]
  have h : (2 : Nat) ^ 970 < 2 ^ 1024 := Nat.pow_lt_pow_right (by omega) (by omega)
  omega

theorem jsOverflow_zero : jsOverflow 0 0 = false := by
  rw [jsOverflow, if_pos (le_refl (0 : Int))]
  rw [decide_eq_false_iff_not]
  intro h
  have := overflowBound_pos
  omega

theorem jsOverflow_stripZeros : ∀ m : Nat, ∀ e : Int,
    jsOverflow (stripZeros m e).1 (stripZeros m e).2 = jsOverflow m e := by
  intro m
  induction m using Nat.strong_induction_on with
  | _ m ih =>
    intro e
    rw [stripZeros]
    split
    · next h =>
      rw [ih (m / 10) (Nat.div_lt_self (by omega) (by omega)) (e + 1)]
      exact jsOverflow_step m e h.1 h.2
    · rfl

/-- Values returned by the parser never overflow: the overflow branch
yields infinity instead. -/
theorem parseAfterSign_val_no_overflow {b neg : Bool} {s : List Char} {m : Nat} {e : Int}
    (h : parseAfterSign b s = .val neg m e) : jsOverflow m e = false := by
  simp only [parseAfterSign] at h
  split at h
  · exact absurd h (by simp)
  · split at h
    · exact absurd h (by simp)
    · split at h
      · exact absurd h (by simp)
      · next hov =>
        obtain ⟨_, rfl, rfl⟩ : b = neg ∧ digitsToNat _ = m ∧ _ = e := by
          simpa using h
        simpa using hov

theorem jsParseFloat_val_no_overflow {s : List Char} {neg : Bool} {m : Nat} {e : Int}
    (h : jsParseFloat s = .val neg m e) : jsOverflow m e = false :=
  parseAfterSign_val_no_overflow h

/-- Parsing a rendered canonical decimal recovers the decimal, up to the
trailing integer zeros that re-enter the exponent; the rendered value is
assumed inside the binary64 range, as every parsed value is. -/
theorem jsParseFloat_renderDec (neg : Bool) (m : Nat) (e : Int)
    (_hm : m ≠ 0) (_h10 : m % 10 ≠ 0) (hno : jsOverflow m e = false) :
    jsParseFloat ((if neg then ['-'] else []) ++ renderDec m e) =
      if 0 ≤ e then JsNum.val neg (m * 10 ^ e.toNat) 0 else JsNum.val neg m e := by
  have hD := natToDigits_all_digit m
  have hDne := natToDigits_ne_nil m
  by_cases he : 0 ≤ e
  · rw [if_pos he]
    simp only [renderDec, if_pos he]
    obtain ⟨c, t, hct⟩ := List.exists_cons_of_ne_nil hDne
    have hc : c.isDigit = true := hD c (by rw [hct]; simp)
    rw [hct, List.cons_append, jsParseFloat_sign_digit neg c _ hc,
      ← List.cons_append, ← hct]
    have hall : ∀ x ∈ natToDigits m ++ zeroChars e.toNat, x.isDigit = true := by
      intro x hx
      rcases List.mem_append.mp hx with h' | h'
      · exact hD x h'
      · exact zeroChars_all_digit _ x h'
    rw [parseAfterSign_digits neg _ (by simp [hDne]) hall]
    rw [digitsToNat_append, digitsToNat_natToDigits, digitsToNat_zeroChars]
    have hov0 : jsOverflow (m * 10 ^ e.toNat) 0 = false := by
      rw [jsOverflow, if_pos (by omega : (0 : Int) ≤ 0)]
      rw [jsOverflow, if_pos he] at hno
      rw [show ((0 : Int).toNat) = 0 from rfl, pow_zero, mul_one]
      exact hno
    simp [zeroChars, hov0]
  · rw [if_neg he]
    simp only [renderDec, if_neg he, Bool.false_eq_true, if_false]
    have hk1 : 1 ≤ (-e).toNat := by omega
    by_cases hkD : (-e).toNat < (natToDigits m).length
    · -- split inside the digit run
      rw [if_pos hkD]
      have hD1ne : (natToDigits m).take ((natToDigits m).length - (-e).toNat) ≠ [] := by
        intro hnil
        have := congrArg List.length hnil
        rw [List.length_take] at this
        simp only [List.length_nil] at this
        omega
      have hD2ne : (natToDigits m).drop ((natToDigits m).length - (-e).toNat) ≠ [] := by
        intro hnil
        have := congrArg List.length hnil
        rw [List.length_drop] at this
        simp only [List.length_nil] at this
        omega
      obtain ⟨c, t, hct⟩ := List.exists_cons_of_ne_nil hD1ne
      have hc : c.isDigit = true := by
        refine hD c ?_
        have : c ∈ (natToDigits m).take ((natToDigits m).length - (-e).toNat) := by
          rw [hct]; simp
        exact List.take_subset _ _ this
      rw [hct, List.cons_append, jsParseFloat_sign_digit neg c _ hc,
        ← List.cons_append, ← hct]
      rw [parseAfterSign_digits_dot neg _ _ hD1ne
        (fun x hx => hD x (List.take_subset _ _ hx)) hD2ne
        (fun x hx => hD x (List.drop_subset _ _ hx))]
      rw [List.take_append_drop, digitsToNat_natToDigits]
      have hlen2 : ((natToDigits m).drop ((natToDigits m).length - (-e).toNat)).length
          = (-e).toNat := by
        rw [List.length_drop]
        omega
      rw [hlen2]
      have : -(((-e).toNat : Nat) : Int) = e := by omega
      rw [this, hno]
      simp
    · -- leading zeros case
      rw [if_neg hkD]
      push_neg at hkD
      have h0 : ('0' : Char).isDigit = true := by decide
      have hshape : ('0' : Char) :: '.' :: (zeroChars ((-e).toNat - (natToDigits m).length) ++ natToDigits m)
          = ['0'] ++ '.' :: (zeroChars ((-e).toNat - (natToDigits m).length) ++ natToDigits m) := rfl
      rw [jsParseFloat_sign_digit neg '0' _ h0, hshape]
      have hX : zeroChars ((-e).toNat - (natToDigits m).length) ++ natToDigits m ≠ [] := by
        intro hnil
        rcases List.append_eq_nil.mp hnil with ⟨_, h2⟩
        exact hDne h2
      rw [parseAfterSign_digits_dot neg _ _ (by simp)
        (by intro x hx; rcases List.mem_singleton.mp hx with rfl; exact h0) hX ?hall]
      case hall =>
        intro x hx
        rcases List.mem_append.mp hx with h' | h'
        · exact zeroChars_all_digit _ x h'
        · exact hD x h'
      have hval : digitsToNat (['0'] ++ (zeroChars ((-e).toNat - (natToDigits m).length) ++ natToDigits m)) = m := by
        rw [List.singleton_append, digitsToNat_cons_zero, digitsToNat_append,
          digitsToNat_zeroChars, digitsToNat_natToDigits]
        omega
      rw [hval]
      have hlen : ((zeroChars ((-e).toNat - (natToDigits m).length) ++ natToDigits m)).length
          = (-e).toNat := by
        rw [List.length_append, zeroChars, List.length_replicate]
        omega
      rw [hlen]
      have : -(((-e).toNat : Nat) : Int) = e := by omega
      rw [this, hno]
      simp

/-! ## The toString / parseFloat round trip and normalize idempotence -/

/-- Re-parsing and re-rendering a rendered JS number reproduces the same
string, for numbers inside the binary64 range as every parsed value is:
numeric canonicalization is a fixed point on its own output. -/
theorem tostring_roundtrip (r : JsNum)
    (hr : ∀ b : Bool, ∀ mm : Nat, ∀ ee : Int, r = .val b mm ee → jsOverflow mm ee = false) :
    jsNumToString (jsParseFloat (jsNumToString r)) = jsNumToString r := by
  cases r with
  | nan => rfl
  | inf neg => cases neg <;> rfl
  | val neg m e =>
    have hno : jsOverflow m e = false := hr neg m e rfl
    rcases hp : stripZeros m e with ⟨m', e'⟩
    have hno' : jsOverflow m' e' = false := by
      have := jsOverflow_stripZeros m e
      rw [hp] at this
      rw [← this] at hno
      exact hno
    simp only [jsNumToString, hp]
    by_cases hz : m' = 0
    · subst hz
      rw [if_pos rfl]
      have h0d : ('0' : Char).isDigit = true := by decide
      have hps : jsParseFloat ['0'] = parseAfterSign false ['0'] := by
        have h := jsParseFloat_sign_digit false '0' [] h0d
        simpa using h
      have hval : digitsToNat ['0'] = 0 := by decide
      rw [hps, parseAfterSign_digits false ['0'] (by simp)
        (by intro c hc; rcases List.mem_singleton.mp hc with rfl; exact h0d),
        hval, jsOverflow_zero]
      simp [jsNumToString, stripZeros_zero]
    · rw [if_neg hz]
      have h10 : m' % 10 ≠ 0 := by
        rcases stripZeros_canon m e with h | h
        · rw [hp] at h; exact absurd h hz
        · rwa [hp] at h
      rw [jsParseFloat_renderDec neg m' e' hz h10 hno']
      by_cases he : 0 ≤ e'
      · rw [if_pos he]
        simp only [jsNumToString]
        rw [show ∀ p : Nat × Int, p.1 = (p.1, p.2).1 from fun _ => rfl]
        have hst : stripZeros (m' * 10 ^ e'.toNat) 0 = (m', (e'.toNat : Int)) := by
          have := stripZeros_mul_pow hz h10 e'.toNat 0
          simpa using this
        rw [hst]
        have hzm : ¬(m' * 10 ^ e'.toNat = 0) :=
          Nat.mul_ne_zero hz (pow_ne_zero _ (by omega))
        simp only [hst, if_neg hz]
        have : (e'.toNat : Int) = e' := Int.toNat_of_nonneg he
        rw [this]
      · rw [if_neg he]
        simp only [jsNumToString, stripZeros_of_mod e' h10, if_neg hz]

/-- Numeric canonicalization of the normalize stage is idempotent. -/
theorem canonNum_idem (s : List Char) : canonNum (canonNum s) = canonNum s :=
  tostring_roundtrip (jsParseFloat s)
    (fun _ _ _ h => jsParseFloat_val_no_overflow h)

/-- ASCII lowercasing is idempotent. -/
theorem toLowerC_idem (c : Char) : toLowerC (toLowerC c) = toLowerC c := by
  have hdef : ∀ x : Char, toLowerC x =
      if 65 ≤ x.toNat ∧ x.toNat ≤ 90 then Char.ofNat (x.toNat + 32) else x := fun _ => rfl
  by_cases h : 65 ≤ c.toNat ∧ c.toNat ≤ 90
  · rw [hdef c, if_pos h]
    obtain ⟨h65, h90⟩ := h
    have hgen : ∀ n : Nat, 65 ≤ n → n ≤ 90 →
        toLowerC (Char.ofNat (n + 32)) = Char.ofNat (n + 32) := by
      intro n hn1 hn2
      interval_cases n <;> decide
    exact hgen c.toNat h65 h90
  · rw [hdef c, if_neg h, hdef c, if_neg h]

theorem toLowerStr_idem (s : List Char) : toLowerStr (toLowerStr s) = toLowerStr s := by
  simp only [toLowerStr, List.map_map]
  exact List.map_congr_left (fun c _ => toLowerC_idem c)

theorem normalizeToken_idem (token : Token) :
    normalizeToken (normalizeToken token) = normalizeToken token := by
  by_cases hw : token.type = TokenType.word
  · simp only [normalizeToken, hw, if_pos rfl]
    simp [toLowerStr_idem]
  · by_cases hn : token.type = TokenType.number
    · simp only [normalizeToken, hw, if_false, hn, if_pos rfl]
      simp [hw, hn, canonNum_idem]
    · simp [normalizeToken, hw, hn]

/-! ## Claim theorems -/

/-- Claim C1 (code bug): every extractor is claimed to make scanning
progress past each accepted or rejected candidate, so that no input loops
forever.  On the input `"."` the number extractor's find-start scan and
candidate scan both leave the position at index 0, and the outer loop never
terminates: the fuelled embedding returns `none` for every fuel bound. -/
theorem c1_number_extractor_stuck_on_dot :
    findNumStart (".".toList) 0 = 0 ∧ scanNum (".".toList) 0 false = 0 ∧
    ∀ fuel : Nat, ∀ acc : List Entity, numLoop (".".toList) fuel 0 acc = none := by
  refine ⟨by decide, by decide, ?_⟩
  exact numLoop_stuck _ 0 (by decide) (by decide) (by decide)

set_option maxRecDepth 10000 in
/-- Claim C2 (code bug): on `"price is 12.50 dollars"` the number extractor
does return exactly one `number` entity with value `"12.50"`; but on
`"end of sentence. Next"` it is claimed to return zero number entities,
while the loop in fact sticks at the sentence-final period (index 15) and
never returns at all: the fuelled embedding yields `none` for every fuel. -/
theorem c2_number_extractor_examples :
    numLoop ("price is 12.50 dollars".toList) 30 0 [] =
      some [⟨.number, "12.50".toList, 9, 14⟩] ∧
    ∀ fuel : Nat, numLoop ("end of sentence. Next".toList) fuel 0 [] = none := by
  constructor
  · decide
  · intro fuel
    cases fuel with
    | zero => rfl
    | succ fuel =>
      have h0 : (0 : Nat) < ("end of sentence. Next".toList).length := by decide
      have h1 : findNumStart ("end of sentence. Next".toList) 0 = 15 := by decide
      have h2 : scanNum ("end of sentence. Next".toList) 15 false = 15 := by decide
      have h3 : (15 : Nat) < ("end of sentence. Next".toList).length := by decide
      simp only [numLoop, h1, h2, if_pos h0, if_pos h3, Nat.lt_irrefl, if_false]
      exact numLoop_stuck _ 15 (by decide) h2 h3 fuel []

/-- Claim C3 counterexample: the claim requires every dot-separated domain
label to be non-empty, but on `"a@b..cc"` the extractor reports the full
string as an email entity although its domain `"b..cc"` contains an empty
label, so the claimed shape test fails on the reported value. -/
theorem c3_counterexample :
    emailEntities ("a@b..cc".toList) = [⟨.email, "a@b..cc".toList, 0, 7⟩] ∧
    claimedEmailShape ("a@b..cc".toList) = false := by
  constructor
  · decide
  · decide

/-- Claim C3 (amended): every entity reported by the email extractor has
the shape local-part `@` domain `.` tld, where the local part is a
non-empty run of `[A-Za-z0-9._%+-]`, the domain is a non-empty run of
`[A-Za-z0-9.-]` (its dot-separated labels may be empty), and the final
label is alphabetic of length at least 2. -/
theorem c3_amended_email_shape (cs : List Char) (e : Entity)
    (h : e ∈ emailEntities cs) :
    ∃ lp dp t : List Char,
      e.value = lp ++ '@' :: (dp ++ '.' :: t) ∧
      lp ≠ [] ∧ (∀ c ∈ lp, isLocalChar c = true) ∧
      dp ≠ [] ∧ (∀ c ∈ dp, isDomainChar c = true) ∧
      (∀ c ∈ t, c.isAlpha = true) ∧ 2 ≤ t.length := by
  obtain ⟨q, n, hm, _, rfl⟩ := emailEntities_mem h
  obtain ⟨lp, dp, t, hdec, h1, h2, h3, h4, h5, h6, _, _⟩ :=
    matchEmailHere_sound _ _ hm
  exact ⟨lp, dp, t, hdec, h1, h2, h3, h4, h5, h6⟩

/-- Witness for the amended C3 shape at a concrete input. -/
theorem c3_amended_email_shape_witness :
    ∃ lp dp t : List Char,
      (Entity.mk .email ("a@b.cc".toList) 0 6).value = lp ++ '@' :: (dp ++ '.' :: t) ∧
      lp ≠ [] ∧ (∀ c ∈ lp, isLocalChar c = true) ∧
      dp ≠ [] ∧ (∀ c ∈ dp, isDomainChar c = true) ∧
      (∀ c ∈ t, c.isAlpha = true) ∧ 2 ≤ t.length :=
  c3_amended_email_shape ("a@b.cc".toList) ⟨.email, "a@b.cc".toList, 0, 6⟩ (by decide)

/-- Claim C4: the phone extractor reports an entity exactly for the
delimiter-split candidates satisfying the length and digit-count
conditions, with the candidate as value and the first occurrence of the
candidate in the text as start; the first-occurrence lookup always
succeeds because every candidate is a substring of the text. -/
theorem c4_phone_extractor_spec (cs : List Char) :
    phoneEntities cs = (phoneTokens cs).filterMap (phoneClaimFn cs) ∧
    ∀ tok ∈ phoneTokens cs, (indexOfSub cs tok).isSome :=
  ⟨phoneEntities_eq_claim cs, fun _ h => phoneTokens_indexOf_isSome h⟩

/-- Witness for C4 at a concrete input. -/
theorem c4_phone_extractor_spec_witness :
    phoneEntities ("call 555-123-4567 today".toList) =
      (phoneTokens ("call 555-123-4567 today".toList)).filterMap
        (phoneClaimFn ("call 555-123-4567 today".toList)) ∧
    (indexOfSub ("call 555-123-4567 today".toList) ("555-123-4567".toList)).isSome :=
  ⟨(c4_phone_extractor_spec ("call 555-123-4567 today".toList)).1,
   (c4_phone_extractor_spec ("call 555-123-4567 today".toList)).2
     ("555-123-4567".toList) (by decide)⟩

/-- Claim C5: every entity appended by an extractor satisfies
`0 ≤ start < end ≤ length text` (the lower bound is automatic in `Nat`)
and `value = text[start:end]` at append time.  For the number extractor
the statement is unconditional in the loop: whenever the candidate scan
advances past a start position, the entity the loop appends there
satisfies the invariant, also on inputs where the loop later hangs. -/
theorem c5_span_invariant :
    (∀ cs : List Char, ∀ e ∈ emailEntities cs, spanInv cs e) ∧
    (∀ cs : List Char, ∀ e ∈ phoneEntities cs, spanInv cs e) ∧
    (∀ cs : List Char, ∀ e ∈ urlEntities cs, spanInv cs e) ∧
    (∀ cs : List Char, ∀ i : Nat, i < scanNum cs i false →
      spanInv cs ⟨.number, slice cs i (scanNum cs i false), i, scanNum cs i false⟩) :=
  ⟨fun cs e h => emailEntities_spanInv cs e h,
   fun cs e h => phoneEntities_spanInv cs e h,
   fun cs e h => urlEntities_spanInv cs e h,
   fun cs i h =>
     ⟨h, scanNum_le cs i false (Nat.le_of_lt (scanNum_progress_lt cs h)), rfl⟩⟩

/-- Witness for C5 on concrete inputs, one entity per extractor; the
number case uses `"5."`, where the loop appends the entity for `"5"` and
then hangs at the trailing period. -/
theorem c5_span_invariant_witness :
    spanInv ("a@b.cc".toList) ⟨.email, "a@b.cc".toList, 0, 6⟩ ∧
    spanInv ("call 555-123-4567 today".toList)
      ⟨.phone, "555-123-4567".toList, 5, 17⟩ ∧
    spanInv ("visit http://example.com/path now".toList)
      ⟨.url, "http://example.com/path".toList, 6, 29⟩ ∧
    spanInv ("5.".toList)
      ⟨.number, slice ("5.".toList) 0 (scanNum ("5.".toList) 0 false), 0,
        scanNum ("5.".toList) 0 false⟩ :=
  ⟨c5_span_invariant.1 ("a@b.cc".toList) _ (by decide),
   c5_span_invariant.2.1 ("call 555-123-4567 today".toList) _ (by decide),
   c5_span_invariant.2.2.1 ("visit http://example.com/path now".toList) _ (by decide),
   c5_span_invariant.2.2.2 ("5.".toList) 0 (by decide)⟩

/-- Claim C6: the URL extractor on `"visit http://example.com/path now"`
yields exactly one `url` entity with value `"http://example.com/path"`,
and on `"http://bad"` yields zero entities because the first path segment
has a single dot-separated label. -/
theorem c6_url_examples :
    urlEntities ("visit http://example.com/path now".toList) =
      [⟨.url, "http://example.com/path".toList, 6, 29⟩] ∧
    urlEntities ("http://bad".toList) = [] := by
  constructor
  · decide
  · decide

/-- Claim C7: the normalize stage is idempotent: lowercasing of word
tokens and entity values and numeric canonicalization of number tokens
are fixed points on their own output, so a second application changes
nothing. -/
theorem c7_normalize_idempotent (input : IntentResult) :
    normalize (normalize input) = normalize input := by
  cases input with
  | mk text tokens entities =>
    simp only [normalize, List.map_map]
    congr 1
    · refine List.map_congr_left ?_
      intro t _
      simp only [Function.comp_apply]
      exact normalizeToken_idem t
    · refine List.map_congr_left ?_
      intro en _
      simp only [Function.comp_apply]
      cases en
      simp [toLowerStr_idem]

/-- Claim C8: `use` and `addCustomProcessor` have identical semantics:
given the same pipeline and stage, both append the stage at the end of the
component list and leave every other field unchanged. -/
theorem c8_use_eq_addCustomProcessor {σ : Type} (p : Pipeline σ)
    (component : PipelineComponent) :
    p.use component = p.addCustomProcessor component ∧
    (p.use component).components = p.components ++ [component] ∧
    (p.use component).rest = p.rest :=
  ⟨rfl, rfl, rfl⟩

/-- Claim C9: every reported phone value consists only of digits and the
characters `-`, `.`, `+`, because whitespace and parentheses are split
delimiters and can never occur inside a candidate; in particular
`"(555) 123-4567"` is never reported as a phone entity. -/
theorem c9_phone_value_chars :
    (∀ cs : List Char, ∀ e ∈ phoneEntities cs, ∀ c ∈ e.value,
      isDigitC c = true ∨ c = '-' ∨ c = '.' ∨ c = '+') ∧
    phoneEntities ("(555) 123-4567".toList) = [] :=
  ⟨fun cs e h => phoneEntities_value_chars cs e h, by decide⟩

/-- Witness for C9 at a concrete input. -/
theorem c9_phone_value_chars_witness :
    isDigitC '5' = true ∨ '5' = '-' ∨ '5' = '.' ∨ '5' = '+' :=
  c9_phone_value_chars.1 ("call 555-123-4567 today".toList)
    ⟨.phone, "555-123-4567".toList, 5, 17⟩ (by decide) '5' (by decide)

set_option maxRecDepth 10000 in
/-- Claim C10 counterexample: a run of 309 nines is collected by the scan
(the position advances from 0 to 309), but its magnitude exceeds the
binary64 range, so `parseFloat` overflows to infinity, `isFinite` fails
and `isNumber` rejects the collected candidate: the loop terminates with
no entity, so the discard branch is reachable. -/
theorem c10_counterexample :
    0 < scanNum (List.replicate 309 '9') 0 false ∧
    isNumber (slice (List.replicate 309 '9') 0
      (scanNum (List.replicate 309 '9') 0 false)) = false ∧
    numLoop (List.replicate 309 '9') 3 0 [] = some [] := by
  refine ⟨by decide, by decide, by decide⟩

/-- Claim C10 (amended): the numeric-parse validation rejects a collected
candidate only by overflowing to positive infinity, never as NaN, so the
discard branch is reachable only for candidates whose magnitude overflows
binary64. -/
theorem c10_amended_collected_candidate (cs : List Char) (i : Nat)
    (h : i < scanNum cs i false) :
    isNumber (slice cs i (scanNum cs i false)) = true ∨
    jsParseFloat (slice cs i (scanNum cs i false)) = .inf false :=
  scanNum_accept_or_overflow cs i h

set_option maxRecDepth 10000 in
/-- Witness for the amended C10 at a concrete input. -/
theorem c10_amended_witness :
    0 < scanNum ("1.5".toList) 0 false ∧
    (isNumber (slice ("1.5".toList) 0 (scanNum ("1.5".toList) 0 false)) = true ∨
     jsParseFloat (slice ("1.5".toList) 0 (scanNum ("1.5".toList) 0 false)) = .inf false) :=
  ⟨by decide, c10_amended_collected_candidate ("1.5".toList) 0 (by decide)⟩

end Miniparse
